import Mathlib

/-!
# Verification of the `scri` utilities module

A shallow embedding of `src/scri/utilities.py` over Lean lists, together with
theorems settling the specification's claims about it.

Modelling conventions:

* The XOR delta codec (`xor_timeseries`, `xor_timeseries_reverse`) views the
  time series as a list of rows, each row being the list of its 64-bit lanes
  (`c.view(np.uint64)`); a lane's bit pattern is a natural number and
  `np.bitwise_xor` is `Nat.xor`.  XOR of values below `2 ^ 64` stays below
  `2 ^ 64`, so no explicit wrap is needed.
* The Fletcher-32 checksum works on `uint16` halfwords accumulated into
  `uint32` counters; the `uint32` wrap-around of NumPy scalars is rendered as
  an explicit `% 2 ^ 32`.  The outer `while` loop advances by one block (of at
  most 360 halfwords) per iteration and is rendered with a fuel argument
  instantiated at `data.length`, which bounds the number of blocks.
* The double-precision window kernels are embedded over `ℝ`, with `np.exp` as
  `Real.exp` and the module constant `maxexp = np.finfo(float).maxexp *
  np.log(2) * 0.99` as `1024 * Real.log 2 * 0.99` (`maxexp` of `float64` is
  `1024`).  The unchecked linear boundary scans of the source index past the
  end of the array when the grid does not span a boundary; a scan is therefore
  embedded as a function returning `Option Nat`, `none` standing for the
  out-of-bounds access, and the kernels propagate that failure.
-/

namespace Scri

/-! ### DeltaCodec: `xor_timeseries` and `xor_timeseries_reverse` -/

/-- One row of a time series: the 64-bit lanes of that time step, each viewed
as an unsigned integer bit pattern. -/
abbrev Row := List Nat

/-- Elementwise `np.bitwise_xor` of two rows. -/
def rowXor (a b : Row) : Row := List.zipWith Nat.xor a b

/-- The loop body shared by both codec loops:
`u[i] = np.bitwise_xor(u[i-1], u[i])`. -/
def xorStep (u : List Row) (i : Nat) : List Row :=
  u.set i (rowXor (u.getD (i - 1) []) (u.getD i []))

/-- `xor_timeseries` (the encoder): runs the XOR step in place for
`i = n-1, n-2, ..., 1` (`range(u.shape[0]-1, 0, -1)`). -/
def xor_timeseries (c : List Row) : List Row :=
  ((List.range' 1 (c.length - 1)).reverse).foldl xorStep c

/-- `xor_timeseries_reverse` (the decoder): runs the XOR step in place for
`i = 1, 2, ..., n-1` (`range(1, u.shape[0])`). -/
def xor_timeseries_reverse (c : List Row) : List Row :=
  (List.range' 1 (c.length - 1)).foldl xorStep c

/-- Rectangularity of a NumPy ndarray: every row has exactly `L` lanes. -/
def Rect (c : List Row) (L : Nat) : Prop := ∀ i, i < c.length → (c.getD i []).length = L

lemma getD_set_ne {α : Type} (l : List α) (i j : Nat) (v d : α) (h : i ≠ j) :
    (l.set i v).getD j d = l.getD j d := by
  induction l generalizing i j with
  | nil => simp
  | cons a l ih =>
    cases i with
    | zero =>
      cases j with
      | zero => exact absurd rfl h
      | succ j => simp [List.set]
    | succ i =>
      cases j with
      | zero => simp [List.set]
      | succ j =>
        simp only [List.set, List.getD_cons_succ]
        exact ih i j (fun hh => h (by rw [hh]))

lemma getD_set_self {α : Type} (l : List α) (i : Nat) (v d : α) (h : i < l.length) :
    (l.set i v).getD i d = v := by
  induction l generalizing i with
  | nil => simp at h
  | cons a l ih =>
    cases i with
    | zero => simp [List.set]
    | succ i =>
      simp only [List.set, List.getD_cons_succ]
      exact ih i (by simpa using h)

lemma set_getD_self {α : Type} (l : List α) (i : Nat) (d : α) :
    l.set i (l.getD i d) = l := by
  induction l generalizing i with
  | nil => simp
  | cons a l ih =>
    cases i with
    | zero => simp [List.set]
    | succ i =>
      simp only [List.set, List.getD_cons_succ]
      rw [ih]

lemma set_oob {α : Type} (l : List α) (i : Nat) (v : α) (h : l.length ≤ i) :
    l.set i v = l := by
  induction l generalizing i with
  | nil => simp
  | cons a l ih =>
    cases i with
    | zero => simp at h
    | succ i => simp only [List.set]; rw [ih i (by simpa using h)]

lemma rowXor_length (a b : Row) : (rowXor a b).length = min a.length b.length :=
  List.length_zipWith _ _ _

lemma rowXor_cancel (a b : Row) (h : a.length = b.length) : rowXor a (rowXor a b) = b := by
  induction a generalizing b with
  | nil => cases b with
    | nil => rfl
    | cons y ys => simp at h
  | cons x xs ih =>
    cases b with
    | nil => simp at h
    | cons y ys =>
      simp only [rowXor, List.zipWith_cons_cons]
      refine congrArg₂ _ ?_ (ih ys (by simpa using h))
      show x ^^^ (x ^^^ y) = y
      rw [← Nat.xor_assoc, Nat.xor_self, Nat.zero_xor]

lemma length_xorStep (u : List Row) (i : Nat) : (xorStep u i).length = u.length := by
  simp [xorStep]

lemma length_foldl_xorStep (l : List Nat) (u : List Row) :
    (l.foldl xorStep u).length = u.length := by
  induction l generalizing u with
  | nil => rfl
  | cons a l ih => rw [List.foldl_cons, ih, length_xorStep]

lemma rect_xorStep {c : List Row} {L : Nat} (h : Rect c L) (i : Nat) :
    Rect (xorStep c i) L := by
  intro j hj
  rw [length_xorStep] at hj
  by_cases hij : i = j
  · subst hij
    have hi : i < c.length := hj
    rw [xorStep, getD_set_self _ _ _ _ hi, rowXor_length, h (i - 1) (by omega), h i hi]
    exact Nat.min_self L
  · rw [xorStep, getD_set_ne _ _ _ _ _ hij]
    exact h j hj

lemma rect_foldl {l : List Nat} {c : List Row} {L : Nat} (h : Rect c L) :
    Rect (l.foldl xorStep c) L := by
  induction l generalizing c with
  | nil => exact h
  | cons a l ih => exact ih (rect_xorStep h a)

lemma xorStep_invol {c : List Row} {L : Nat} (h : Rect c L) {i : Nat} (hi : 1 ≤ i) :
    xorStep (xorStep c i) i = c := by
  by_cases hlen : i < c.length
  · have hne : i ≠ i - 1 := by omega
    have h1 : i - 1 < c.length := by omega
    conv_lhs => rw [xorStep, xorStep]
    rw [getD_set_ne _ _ _ _ _ hne, getD_set_self _ _ _ _ hlen,
      rowXor_cancel _ _ (by rw [h (i - 1) h1, h i hlen]), List.set_set, set_getD_self]
  · have e1 : xorStep c i = c := by
      rw [xorStep, set_oob _ _ _ (by omega)]
    rw [e1, e1]

lemma foldl_xorStep_inv : ∀ (l : List Nat) (c : List Row) (L : Nat), Rect c L →
    (∀ i ∈ l, 1 ≤ i) → (l.reverse).foldl xorStep (l.foldl xorStep c) = c := by
  intro l
  induction l with
  | nil => intro c L _ _; rfl
  | cons a l ih =>
    intro c L h hl
    rw [List.foldl_cons, List.reverse_cons, List.foldl_append]
    rw [ih (xorStep c a) L (rect_xorStep h a) (fun i hi => hl i (List.mem_cons_of_mem _ hi))]
    simp only [List.foldl_cons, List.foldl_nil]
    exact xorStep_invol h (hl a (List.mem_cons_self _ _))

/-- **C1.**  Round-trip of the XOR delta codec: decoding an encoded series
reproduces every lane bit-for-bit, encoding a decoded series does likewise,
and on a series with exactly one row both transforms leave the buffer
unchanged.  The hypothesis `Rect c L` is the rectangularity of the ndarray. -/
theorem xor_timeseries_roundtrip (c : List Row) (L : Nat) (h : Rect c L) :
    xor_timeseries_reverse (xor_timeseries c) = c ∧
    xor_timeseries (xor_timeseries_reverse c) = c ∧
    (c.length = 1 → xor_timeseries c = c ∧ xor_timeseries_reverse c = c) := by
  have hlen1 : (xor_timeseries c).length = c.length := length_foldl_xorStep _ _
  have hlen2 : (xor_timeseries_reverse c).length = c.length := length_foldl_xorStep _ _
  have hmem : ∀ i ∈ List.range' 1 (c.length - 1), 1 ≤ i := by
    intro i hi
    exact (List.mem_range'_1.mp hi).1
  refine ⟨?_, ?_, ?_⟩
  · unfold xor_timeseries_reverse
    rw [hlen1]
    have h2 := foldl_xorStep_inv ((List.range' 1 (c.length - 1)).reverse) c L h
      (fun i hi => hmem i (List.mem_reverse.mp hi))
    rw [List.reverse_reverse] at h2
    exact h2
  · unfold xor_timeseries
    rw [hlen2]
    exact foldl_xorStep_inv (List.range' 1 (c.length - 1)) c L h hmem
  · intro h1
    unfold xor_timeseries xor_timeseries_reverse
    rw [h1]
    simp

/-- Witness for C1 at a concrete three-row, two-lane series. -/
theorem xor_timeseries_roundtrip_witness :
    xor_timeseries_reverse (xor_timeseries [[1, 2], [3, 4], [5, 6]]) = [[1, 2], [3, 4], [5, 6]] ∧
    xor_timeseries (xor_timeseries_reverse [[1, 2], [3, 4], [5, 6]]) = [[1, 2], [3, 4], [5, 6]] ∧
    (([[1, 2], [3, 4], [5, 6]] : List Row).length = 1 →
      xor_timeseries [[1, 2], [3, 4], [5, 6]] = [[1, 2], [3, 4], [5, 6]] ∧
      xor_timeseries_reverse [[1, 2], [3, 4], [5, 6]] = [[1, 2], [3, 4], [5, 6]]) :=
  xor_timeseries_roundtrip [[1, 2], [3, 4], [5, 6]] 2 (by unfold Rect; decide)

/-! ### IntegrityChecksum: `fletcher32` -/

/-- Inner block loop of `fletcher32`: for each halfword `d` of the block,
`c0 += data[j]` then `c1 += c0`, on NumPy `uint32` scalars (hence the explicit
wrap modulo `2 ^ 32`). -/
def fletcherBlock : List Nat → Nat → Nat → Nat × Nat
  | [], c0, c1 => (c0, c1)
  | d :: ds, c0, c1 =>
    fletcherBlock ds ((c0 + d) % 4294967296) ((c1 + (c0 + d) % 4294967296) % 4294967296)

/-- Outer `while j < size` loop of `fletcher32`: process one block of at most
360 halfwords, then reduce both accumulators modulo 65535.  The `fuel`
argument (instantiated at `data.length`, an upper bound for the number of
blocks) only serves termination; the loop exits when the data is consumed. -/
def fletcherLoop : Nat → List Nat → Nat → Nat → Nat × Nat
  | 0, _, c0, c1 => (c0, c1)
  | _ + 1, [], c0, c1 => (c0, c1)
  | fuel + 1, d :: ds, c0, c1 =>
    let p := fletcherBlock ((d :: ds).take 360) c0 c1
    fletcherLoop fuel ((d :: ds).drop 360) (p.1 % 65535) (p.2 % 65535)

/-- `fletcher32`: the data viewed as 16-bit halfwords (each entry a value
below `2 ^ 16`), returning `(c1 << 16) | c0` on `uint32` scalars. -/
def fletcher32 (data : List Nat) : Nat :=
  let p := fletcherLoop data.length data 0 0
  ((p.2 <<< 16) % 4294967296) ||| p.1

/-- The block loop as described by the specification: exact (unbounded)
integer accumulators `c0 += d`, `c1 += c0`.  Claim C4 shows that with blocks
of at most 360 halfwords these never exceed `2 ^ 32 - 1`, which is why the
`uint32` arithmetic of `fletcherBlock` computes the same values. -/
def fletcherBlockExact : List Nat → Nat → Nat → Nat × Nat
  | [], c0, c1 => (c0, c1)
  | d :: ds, c0, c1 => fletcherBlockExact ds (c0 + d) (c1 + (c0 + d))

/-- The outer loop of the specification's algorithm, with exact accumulators
inside each block and the modulo-65535 reduction after every block. -/
def fletcherLoopSpec : Nat → List Nat → Nat → Nat → Nat × Nat
  | 0, _, c0, c1 => (c0, c1)
  | _ + 1, [], c0, c1 => (c0, c1)
  | fuel + 1, d :: ds, c0, c1 =>
    let p := fletcherBlockExact ((d :: ds).take 360) c0 c1
    fletcherLoopSpec fuel ((d :: ds).drop 360) (p.1 % 65535) (p.2 % 65535)

/-- The checksum algorithm exactly as the specification words it. -/
def fletcher32_spec (data : List Nat) : Nat :=
  let p := fletcherLoopSpec data.length data 0 0
  (p.2 <<< 16) ||| p.1

/-- Triangular numbers, used to bound the growth of `c1` inside a block. -/
def tri : Nat → Nat
  | 0 => 0
  | n + 1 => tri n + (n + 1)

lemma tri_mono : ∀ {m n : Nat}, m ≤ n → tri m ≤ tri n := by
  intro m n h
  induction n with
  | zero =>
    have hm : m = 0 := Nat.le_zero.mp h
    subst hm
    exact le_rfl
  | succ n ih =>
    rcases Nat.lt_succ_iff_lt_or_eq.mp (Nat.lt_succ_of_le h) with h' | h'
    · exact le_trans (ih (by omega)) (by simp [tri])
    · subst h'
      exact le_rfl

lemma mod65535_le (a : Nat) : a % 65535 ≤ 65534 := by
  have := Nat.mod_lt a (show 0 < 65535 by norm_num)
  omega

lemma fletcherBlockExact_le : ∀ (ds : List Nat) (c0 c1 : Nat), (∀ d ∈ ds, d ≤ 65535) →
    (fletcherBlockExact ds c0 c1).1 ≤ c0 + ds.length * 65535 ∧
    (fletcherBlockExact ds c0 c1).2 ≤ c1 + ds.length * c0 + 65535 * tri ds.length := by
  intro ds
  induction ds with
  | nil => intro c0 c1 _; simp [fletcherBlockExact, tri]
  | cons d ds ih =>
    intro c0 c1 hd
    have hd0 : d ≤ 65535 := hd d (List.mem_cons_self _ _)
    obtain ⟨h1, h2⟩ := ih (c0 + d) (c1 + (c0 + d)) (fun x hx => hd x (List.mem_cons_of_mem _ hx))
    constructor
    · show (fletcherBlockExact ds (c0 + d) (c1 + (c0 + d))).1 ≤ c0 + (ds.length + 1) * 65535
      omega
    · show (fletcherBlockExact ds (c0 + d) (c1 + (c0 + d))).2 ≤
        c1 + (ds.length + 1) * c0 + 65535 * tri (ds.length + 1)
      calc (fletcherBlockExact ds (c0 + d) (c1 + (c0 + d))).2
          ≤ c1 + (c0 + d) + ds.length * (c0 + d) + 65535 * tri ds.length := h2
        _ = c1 + (ds.length + 1) * c0 + (ds.length + 1) * d + 65535 * tri ds.length := by ring
        _ ≤ c1 + (ds.length + 1) * c0 + (ds.length + 1) * 65535 + 65535 * tri ds.length := by
            gcongr
        _ = c1 + (ds.length + 1) * c0 + 65535 * tri (ds.length + 1) := by
            simp only [tri]; ring

lemma le_fletcherBlockExact : ∀ (ds : List Nat) (c0 c1 : Nat),
    c0 ≤ (fletcherBlockExact ds c0 c1).1 ∧ c1 ≤ (fletcherBlockExact ds c0 c1).2 := by
  intro ds
  induction ds with
  | nil => intro c0 c1; exact ⟨le_rfl, le_rfl⟩
  | cons d ds ih =>
    intro c0 c1
    obtain ⟨h1, h2⟩ := ih (c0 + d) (c1 + (c0 + d))
    exact ⟨by simpa [fletcherBlockExact] using le_trans (by omega) h1,
      by simpa [fletcherBlockExact] using le_trans (by omega) h2⟩

lemma fletcherBlock_eq_exact : ∀ (ds : List Nat) (c0 c1 : Nat),
    (fletcherBlockExact ds c0 c1).1 < 4294967296 →
    (fletcherBlockExact ds c0 c1).2 < 4294967296 →
    fletcherBlock ds c0 c1 = fletcherBlockExact ds c0 c1 := by
  intro ds
  induction ds with
  | nil => intro c0 c1 _ _; rfl
  | cons d ds ih =>
    intro c0 c1 h1 h2
    simp only [fletcherBlockExact] at h1 h2
    have ha : c0 + d < 4294967296 :=
      lt_of_le_of_lt (le_fletcherBlockExact ds (c0 + d) (c1 + (c0 + d))).1 h1
    have hb : c1 + (c0 + d) < 4294967296 :=
      lt_of_le_of_lt (le_fletcherBlockExact ds (c0 + d) (c1 + (c0 + d))).2 h2
    simp only [fletcherBlock, fletcherBlockExact]
    rw [Nat.mod_eq_of_lt ha, Nat.mod_eq_of_lt hb]
    exact ih _ _ h1 h2

set_option maxRecDepth 10000 in
lemma fletcherBlockExact_lt (ds : List Nat) (c0 c1 : Nat) (hlen : ds.length ≤ 360)
    (hd : ∀ d ∈ ds, d ≤ 65535) (h0 : c0 ≤ 65534) (h1 : c1 ≤ 65534) :
    (fletcherBlockExact ds c0 c1).1 ≤ 4294967295 ∧
    (fletcherBlockExact ds c0 c1).2 ≤ 4294967295 := by
  obtain ⟨b1, b2⟩ := fletcherBlockExact_le ds c0 c1 hd
  have ht : tri ds.length ≤ 64980 := by
    have := tri_mono hlen
    simpa [show tri 360 = 64980 by decide] using this
  have hm : ds.length * c0 ≤ 360 * 65534 := Nat.mul_le_mul hlen h0
  have hm2 : ds.length * 65535 ≤ 360 * 65535 := Nat.mul_le_mul_right _ hlen
  omega

lemma fletcherLoop_eq_spec : ∀ (fuel : Nat) (data : List Nat) (c0 c1 : Nat),
    (∀ d ∈ data, d ≤ 65535) → c0 ≤ 65534 → c1 ≤ 65534 →
    fletcherLoop fuel data c0 c1 = fletcherLoopSpec fuel data c0 c1 := by
  intro fuel
  induction fuel with
  | zero => intro data c0 c1 _ _ _; rfl
  | succ fuel ih =>
    intro data c0 c1 hd h0 h1
    cases data with
    | nil => rfl
    | cons d ds =>
      simp only [fletcherLoop, fletcherLoopSpec]
      have htk : ∀ a ∈ (d :: ds).take 360, a ≤ 65535 :=
        fun a ha => hd a (List.take_subset _ _ ha)
      have hlen : ((d :: ds).take 360).length ≤ 360 := by
        simp [List.length_take]
      obtain ⟨hc0, hc1⟩ := fletcherBlockExact_lt ((d :: ds).take 360) c0 c1 hlen htk h0 h1
      rw [fletcherBlock_eq_exact _ _ _ (by omega) (by omega)]
      exact ih _ _ _ (fun a ha => hd a (List.drop_subset _ _ ha)) (mod65535_le _) (mod65535_le _)

lemma fletcherLoopSpec_le : ∀ (fuel : Nat) (data : List Nat) (c0 c1 : Nat),
    c0 ≤ 65534 → c1 ≤ 65534 →
    (fletcherLoopSpec fuel data c0 c1).1 ≤ 65534 ∧
    (fletcherLoopSpec fuel data c0 c1).2 ≤ 65534 := by
  intro fuel
  induction fuel with
  | zero => intro data c0 c1 h0 h1; exact ⟨h0, h1⟩
  | succ fuel ih =>
    intro data c0 c1 h0 h1
    cases data with
    | nil => exact ⟨h0, h1⟩
    | cons d ds =>
      simp only [fletcherLoopSpec]
      exact ih _ _ _ (mod65535_le _) (mod65535_le _)

/-- **C3.**  `fletcher32` computes exactly the algorithm the specification
describes (halfword sums in blocks of at most 360 with exact accumulators,
reduction modulo 65535 after every block, result `(c1 << 16) | c0`), and on a
buffer of exactly one halfword `0x0001` it returns `0x00010001`. -/
theorem fletcher32_matches_spec (data : List Nat) (h : ∀ d ∈ data, d < 65536) :
    fletcher32 data = fletcher32_spec data ∧ fletcher32 [1] = 0x00010001 := by
  constructor
  · unfold fletcher32 fletcher32_spec
    rw [fletcherLoop_eq_spec data.length data 0 0 (fun d hd => by
      have := h d hd; omega) (by omega) (by omega)]
    have h2 := (fletcherLoopSpec_le data.length data 0 0 (by omega) (by omega)).2
    have hs : (fletcherLoopSpec data.length data 0 0).2 <<< 16 < 4294967296 := by
      rw [Nat.shiftLeft_eq]
      calc (fletcherLoopSpec data.length data 0 0).2 * 2 ^ 16 ≤ 65534 * 2 ^ 16 := by
            exact Nat.mul_le_mul_right _ h2
        _ < 4294967296 := by norm_num
    simp only [Nat.mod_eq_of_lt hs]
  · decide

/-- Witness for C3 at a concrete three-halfword buffer. -/
theorem fletcher32_matches_spec_witness :
    fletcher32 [1, 2, 3] = fletcher32_spec [1, 2, 3] ∧ fletcher32 [1] = 0x00010001 :=
  fletcher32_matches_spec [1, 2, 3] (by decide)

set_option maxRecDepth 10000 in
/-- **C4.**  With blocks of at most 360 halfwords, the exact values of the two
accumulators never exceed `2 ^ 32 - 1` before the reduction (so the `uint32`
arithmetic of the code never wraps inside a block — third conjunct), even in
the worst case where every halfword is `0xFFFF` and both accumulators start
the block at 65534; and a block of 361 maximal halfwords does overflow `c1`,
so 360 is the largest block size with this guarantee. -/
theorem fletcher32_block_size (ds : List Nat) (c0 c1 : Nat) (hlen : ds.length ≤ 360)
    (hd : ∀ d ∈ ds, d ≤ 65535) (h0 : c0 ≤ 65534) (h1 : c1 ≤ 65534) :
    (fletcherBlockExact ds c0 c1).1 ≤ 2 ^ 32 - 1 ∧
    (fletcherBlockExact ds c0 c1).2 ≤ 2 ^ 32 - 1 ∧
    fletcherBlock ds c0 c1 = fletcherBlockExact ds c0 c1 ∧
    2 ^ 32 - 1 < (fletcherBlockExact (List.replicate 361 65535) 65534 65534).2 := by
  obtain ⟨b1, b2⟩ := fletcherBlockExact_lt ds c0 c1 hlen hd h0 h1
  refine ⟨by omega, by omega, fletcherBlock_eq_exact ds c0 c1 (by omega) (by omega), ?_⟩
  decide

set_option maxRecDepth 10000 in
/-- Witness for C4 at the worst-case block: 360 maximal halfwords with both
accumulators starting at 65534. -/
theorem fletcher32_block_size_witness :
    (fletcherBlockExact (List.replicate 360 65535) 65534 65534).1 ≤ 2 ^ 32 - 1 ∧
    (fletcherBlockExact (List.replicate 360 65535) 65534 65534).2 ≤ 2 ^ 32 - 1 ∧
    fletcherBlock (List.replicate 360 65535) 65534 65534 =
      fletcherBlockExact (List.replicate 360 65535) 65534 65534 ∧
    2 ^ 32 - 1 < (fletcherBlockExact (List.replicate 361 65535) 65534 65534).2 :=
  fletcher32_block_size (List.replicate 360 65535) 65534 65534
    (le_of_eq (List.length_replicate _ _))
    (fun d hd => le_of_eq (List.eq_of_mem_replicate hd)) (by omega) (by omega)

/-! ### WindowKernel: boundary scans and the transition kernel -/

/-- The module-wide overflow threshold
`maxexp = np.finfo(float).maxexp * np.log(2) * 0.99`; for `float64`,
`np.finfo(float).maxexp = 1024` and `np.log` is the natural logarithm. -/
noncomputable def maxexp : ℝ := 1024 * Real.log 2 * 0.99

/-- A linear boundary scan `while not p(x[i]): i += 1` started at the head:
`some i` is the first index whose entry satisfies `p`, while `none` means the
loop ran past the end of the array (where the source performs an
out-of-bounds access). -/
noncomputable def scanIdx (p : ℝ → Prop) [DecidablePred p] : List ℝ → Option Nat
  | [] => none
  | a :: l => if p a then some 0 else (scanIdx p l).map (· + 1)

/-- The same linear scan started at index `s` instead of 0. -/
noncomputable def scanFrom (p : ℝ → Prop) [DecidablePred p] (l : List ℝ) (s : Nat) :
    Option Nat :=
  (scanIdx p (l.drop s)).map (· + s)

lemma getD_mem {α : Type} (l : List α) (i : Nat) (d : α) (h : i < l.length) :
    l.getD i d ∈ l := by
  induction l generalizing i with
  | nil => simp at h
  | cons a l ih =>
    cases i with
    | zero => simp
    | succ i =>
      simp only [List.getD_cons_succ]
      exact List.mem_cons_of_mem _ (ih i (by simpa using h))

lemma getD_drop {α : Type} (l : List α) (i j : Nat) (d : α) :
    (l.drop i).getD j d = l.getD (i + j) d := by
  induction i generalizing l with
  | zero => simp
  | succ i ih =>
    cases l with
    | nil => simp
    | cons a l =>
      rw [List.drop_succ_cons, ih, show i + 1 + j = (i + j) + 1 by omega,
        List.getD_cons_succ]

lemma scanIdx_none {p : ℝ → Prop} [DecidablePred p] :
    ∀ (l : List ℝ), (∀ a ∈ l, ¬ p a) → scanIdx p l = none := by
  intro l
  induction l with
  | nil => intro _; rfl
  | cons a l ih =>
    intro h
    rw [scanIdx, if_neg (h a (List.mem_cons_self _ _)),
      ih (fun b hb => h b (List.mem_cons_of_mem _ hb))]
    rfl

lemma scanIdx_some {p : ℝ → Prop} [DecidablePred p] :
    ∀ (l : List ℝ), (∃ a ∈ l, p a) → ∃ i, scanIdx p l = some i := by
  intro l
  induction l with
  | nil => rintro ⟨a, ha, _⟩; exact absurd ha (List.not_mem_nil a)
  | cons a l ih =>
    rintro ⟨b, hb, hpb⟩
    by_cases hpa : p a
    · exact ⟨0, by rw [scanIdx, if_pos hpa]⟩
    · have hbl : b ∈ l := by
        rcases List.mem_cons.mp hb with h | h
        · subst h; exact absurd hpb hpa
        · exact h
      obtain ⟨i, hi⟩ := ih ⟨b, hbl, hpb⟩
      exact ⟨i + 1, by rw [scanIdx, if_neg hpa, hi]; rfl⟩

lemma scanIdx_lt_length {p : ℝ → Prop} [DecidablePred p] :
    ∀ (l : List ℝ) {i : Nat}, scanIdx p l = some i → i < l.length := by
  intro l
  induction l with
  | nil => intro i h; exact absurd h (by rw [scanIdx]; exact Option.noConfusion)
  | cons a l ih =>
    intro i h
    by_cases hpa : p a
    · rw [scanIdx, if_pos hpa] at h
      injection h with h
      subst h
      simp
    · rw [scanIdx, if_neg hpa] at h
      obtain ⟨j, hj, rfl⟩ := Option.map_eq_some'.mp h
      have := ih hj
      simp only [List.length_cons]
      omega

lemma scanIdx_prop {p : ℝ → Prop} [DecidablePred p] :
    ∀ (l : List ℝ) {i : Nat}, scanIdx p l = some i → p (l.getD i 0) := by
  intro l
  induction l with
  | nil => intro i h; exact absurd h (by rw [scanIdx]; exact Option.noConfusion)
  | cons a l ih =>
    intro i h
    by_cases hpa : p a
    · rw [scanIdx, if_pos hpa] at h
      injection h with h
      subst h
      simpa using hpa
    · rw [scanIdx, if_neg hpa] at h
      obtain ⟨j, hj, rfl⟩ := Option.map_eq_some'.mp h
      simpa using ih hj

lemma scanIdx_min {p : ℝ → Prop} [DecidablePred p] :
    ∀ (l : List ℝ) {i : Nat}, scanIdx p l = some i → ∀ j, j < i → ¬ p (l.getD j 0) := by
  intro l
  induction l with
  | nil => intro i h; exact absurd h (by rw [scanIdx]; exact Option.noConfusion)
  | cons a l ih =>
    intro i h j hj
    by_cases hpa : p a
    · rw [scanIdx, if_pos hpa] at h
      injection h with h
      omega
    · rw [scanIdx, if_neg hpa] at h
      obtain ⟨i', hi', rfl⟩ := Option.map_eq_some'.mp h
      cases j with
      | zero => simpa using hpa
      | succ j =>
        simp only [List.getD_cons_succ]
        exact ih hi' j (by omega)

lemma scanIdx_first {p : ℝ → Prop} [DecidablePred p] :
    ∀ (l : List ℝ) (i : Nat), i < l.length → p (l.getD i 0) →
      (∀ j, j < i → ¬ p (l.getD j 0)) → scanIdx p l = some i := by
  intro l
  induction l with
  | nil => intro i h; simp at h
  | cons a l ih =>
    intro i hi hp hmin
    by_cases hpa : p a
    · cases i with
      | zero => rw [scanIdx, if_pos hpa]
      | succ i => exact absurd hpa (by simpa using hmin 0 (by omega))
    · cases i with
      | zero => exact absurd (by simpa using hp) hpa
      | succ i =>
        rw [scanIdx, if_neg hpa,
          ih i (by simpa using hi) (by simpa using hp)
            (fun j hj => by simpa using hmin (j + 1) (by omega))]
        rfl

lemma scanFrom_some {p : ℝ → Prop} [DecidablePred p] (l : List ℝ) (s : Nat)
    (h : ∃ k, s ≤ k ∧ k < l.length ∧ p (l.getD k 0)) :
    ∃ i, scanFrom p l s = some i ∧ s ≤ i ∧ i < l.length ∧ p (l.getD i 0) ∧
      ∀ j, s ≤ j → j < i → ¬ p (l.getD j 0) := by
  obtain ⟨k, hsk, hk, hpk⟩ := h
  have hmem : ∃ a ∈ l.drop s, p a := by
    refine ⟨(l.drop s).getD (k - s) 0, getD_mem _ _ _ ?_, ?_⟩
    · rw [List.length_drop]; omega
    · rw [getD_drop, show s + (k - s) = k by omega]; exact hpk
  obtain ⟨i0, hi0⟩ := scanIdx_some _ hmem
  have hlt := scanIdx_lt_length _ hi0
  rw [List.length_drop] at hlt
  refine ⟨i0 + s, by rw [scanFrom, hi0]; rfl, by omega, by omega, ?_, ?_⟩
  · have hq := scanIdx_prop _ hi0
    rwa [getD_drop, Nat.add_comm s i0] at hq
  · intro j hsj hji
    have hq := scanIdx_min _ hi0 (j - s) (by omega)
    rwa [getD_drop, show s + (j - s) = j by omega] at hq

lemma scanFrom_none {p : ℝ → Prop} [DecidablePred p] (l : List ℝ) (s : Nat)
    (h : ∀ a ∈ l, ¬ p a) : scanFrom p l s = none := by
  rw [scanFrom, scanIdx_none _ (fun a ha => h a (List.drop_subset _ _ ha))]
  rfl

lemma scanFrom_first {p : ℝ → Prop} [DecidablePred p] (l : List ℝ) (s i : Nat)
    (hsi : s ≤ i) (hi : i < l.length) (hp : p (l.getD i 0))
    (hmin : ∀ j, s ≤ j → j < i → ¬ p (l.getD j 0)) : scanFrom p l s = some i := by
  rw [scanFrom, scanIdx_first (l.drop s) (i - s) (by rw [List.length_drop]; omega)
    (by rw [getD_drop, show s + (i - s) = i by omega]; exact hp)
    (fun j hj => by
      rw [getD_drop]
      exact hmin (s + j) (by omega) (by omega))]
  simp only [Option.map_some']
  congr 1
  omega

/-- The grid is monotonic (non-decreasing), as §3 of the specification
requires. -/
def Monotonic (x : List ℝ) : Prop := List.Pairwise (· ≤ ·) x

lemma Monotonic.getD_le {x : List ℝ} (hm : Monotonic x) {i j : Nat} (hij : i ≤ j)
    (hj : j < x.length) : x.getD i 0 ≤ x.getD j 0 := by
  rcases Nat.lt_or_ge j (i + 1) with h | h
  · have : i = j := by omega
    subst this
    exact le_rfl
  · have hi : i < x.length := by omega
    rw [List.getD_eq_getElem _ _ hi, List.getD_eq_getElem _ _ hj]
    have := List.pairwise_iff_get.mp hm ⟨i, hi⟩ ⟨j, hj⟩ (by
      simp only [Fin.mk_lt_mk]
      omega)
    simpa using this

/-- Value of the transition kernel at one interior sample, as computed inside
the fill loop of `_transition_function`: with `tau = (x[i]-x0)/(x1-x0)` and
`exponent = 1/tau - 1/(1-tau)`, the output is clamped to `y0` when
`exponent >= maxexp` and is `y0 + (y1-y0)/(1 + exp(exponent))` otherwise. -/
noncomputable def transitionAt (x0 x1 y0 y1 v : ℝ) : ℝ :=
  if maxexp ≤ 1 / ((v - x0) / (x1 - x0)) - 1 / (1 - (v - x0) / (x1 - x0)) then y0
  else y0 + (y1 - y0) /
    (1 + Real.exp (1 / ((v - x0) / (x1 - x0)) - 1 / (1 - (v - x0) / (x1 - x0))))

/-- `_transition_function`: scan for `i0` (first index with `x[i] > x0`,
a `while x[i] <= x0` loop), fill `y0` before it, fill the kernel values while
`x[i] < x1`, record `i1` there, and fill `y1` from `i1` on.  Either scan can
run past the end of the array; the result is `none` in that case. -/
noncomputable def _transition_function (x : List ℝ) (x0 x1 y0 y1 : ℝ) :
    Option (List ℝ × Nat × Nat) :=
  match scanIdx (fun a => x0 < a) x with
  | none => none
  | some i0 =>
    match scanFrom (fun a => x1 ≤ a) x i0 with
    | none => none
    | some i1 =>
      some ((List.range x.length).map fun k =>
        if k < i0 then y0
        else if k < i1 then transitionAt x0 x1 y0 y1 (x.getD k 0)
        else y1, i0, i1)

/-- `transition_function`: the public wrapper.  The `return_indices` flag of
the source selects the same computation either way, merely dropping the two
indices when false; this is the flag-false variant. -/
noncomputable def transition_function (x : List ℝ) (x0 x1 y0 y1 : ℝ) : Option (List ℝ) :=
  (_transition_function x x0 x1 y0 y1).map fun r => r.1

/-- Value of the analytic derivative at one interior sample, with the same
clamp-to-zero rule near the overflow boundary. -/
noncomputable def transitionDerivAt (x0 x1 y0 y1 v : ℝ) : ℝ :=
  if maxexp ≤ 1 / ((v - x0) / (x1 - x0)) - 1 / (1 - (v - x0) / (x1 - x0)) then 0
  else
    -(y1 - y0) *
      Real.exp (1 / ((v - x0) / (x1 - x0)) - 1 / (1 - (v - x0) / (x1 - x0))) *
      (-1 / ((v - x0) / (x1 - x0)) ^ 2 - 1 / (1 - (v - x0) / (x1 - x0)) ^ 2) *
      (1 / (x1 - x0)) /
      (1 + Real.exp (1 / ((v - x0) / (x1 - x0)) - 1 / (1 - (v - x0) / (x1 - x0)))) ^ 2

/-- `transition_function_derivative`: same boundary scans as
`_transition_function`, zeros outside the open transition region. -/
noncomputable def transition_function_derivative (x : List ℝ) (x0 x1 y0 y1 : ℝ) :
    Option (List ℝ) :=
  match scanIdx (fun a => x0 < a) x with
  | none => none
  | some i0 =>
    match scanFrom (fun a => x1 ≤ a) x i0 with
    | none => none
    | some i1 =>
      some ((List.range x.length).map fun k =>
        if i0 ≤ k ∧ k < i1 then transitionDerivAt x0 x1 y0 y1 (x.getD k 0) else 0)

lemma transition_eq {x : List ℝ} {x0 x1 y0 y1 : ℝ} {i0 i1 : Nat}
    (h0 : scanIdx (fun a => x0 < a) x = some i0)
    (h1 : scanFrom (fun a => x1 ≤ a) x i0 = some i1) :
    _transition_function x x0 x1 y0 y1 =
      some ((List.range x.length).map fun k =>
        if k < i0 then y0
        else if k < i1 then transitionAt x0 x1 y0 y1 (x.getD k 0)
        else y1, i0, i1) := by
  simp only [_transition_function, h0, h1]

lemma transition_derivative_eq {x : List ℝ} {x0 x1 y0 y1 : ℝ} {i0 i1 : Nat}
    (h0 : scanIdx (fun a => x0 < a) x = some i0)
    (h1 : scanFrom (fun a => x1 ≤ a) x i0 = some i1) :
    transition_function_derivative x x0 x1 y0 y1 =
      some ((List.range x.length).map fun k =>
        if i0 ≤ k ∧ k < i1 then transitionDerivAt x0 x1 y0 y1 (x.getD k 0) else 0) := by
  simp only [transition_function_derivative, h0, h1]

lemma getD_map_range (f : Nat → ℝ) (n k : Nat) (h : k < n) :
    (((List.range n).map f).getD k 0) = f k := by
  have hk : k < ((List.range n).map f).length := by simpa using h
  rw [List.getD_eq_getElem _ _ hk, List.getElem_map, List.getElem_range]

/-- Success and first-index characterisation of the two boundary scans of the
transition kernels, under the documented preconditions: `x0 < x1` and a grid
spanning both boundaries. -/
lemma transition_scans (x : List ℝ) (x0 x1 : ℝ) (hx : x0 < x1)
    (h0 : ∃ k, k < x.length ∧ x0 < x.getD k 0)
    (h1 : ∃ k, k < x.length ∧ x1 ≤ x.getD k 0) :
    ∃ i0 i1, scanIdx (fun a => x0 < a) x = some i0 ∧
      scanFrom (fun a => x1 ≤ a) x i0 = some i1 ∧
      i0 ≤ i1 ∧ i1 < x.length ∧ x0 < x.getD i0 0 ∧ x1 ≤ x.getD i1 0 ∧
      (∀ j, j < i0 → x.getD j 0 ≤ x0) ∧ (∀ j, i0 ≤ j → j < i1 → x.getD j 0 < x1) ∧
      (∀ j, j < i1 → x.getD j 0 < x1) := by
  obtain ⟨k0, hk0, hp0⟩ := h0
  obtain ⟨i0, hi0⟩ := scanIdx_some x ⟨x.getD k0 0, getD_mem _ _ _ hk0, hp0⟩
  have hi0lt := scanIdx_lt_length x hi0
  have hi0p := scanIdx_prop x hi0
  have hi0min := scanIdx_min x hi0
  obtain ⟨k1, hk1, hp1⟩ := h1
  have hex : ∃ k, i0 ≤ k ∧ k < x.length ∧ x1 ≤ x.getD k 0 := by
    rcases Nat.lt_or_ge k1 i0 with h | h
    · have hle : x.getD k1 0 ≤ x0 := not_lt.mp (hi0min k1 h)
      exact absurd hp1 (not_le.mpr (lt_of_le_of_lt hle hx))
    · exact ⟨k1, h, hk1, hp1⟩
  obtain ⟨i1, hsf, hi01, hi1lt, hi1p, hi1min⟩ := scanFrom_some x i0 hex
  refine ⟨i0, i1, hi0, hsf, hi01, hi1lt, hi0p, hi1p,
    fun j hj => not_lt.mp (hi0min j hj),
    fun j hj1 hj2 => not_le.mp (hi1min j hj1 hj2), fun j hj => ?_⟩
  rcases Nat.lt_or_ge j i0 with h | h
  · exact lt_of_le_of_lt (not_lt.mp (hi0min j h)) hx
  · exact not_le.mp (hi1min j h hj)

lemma le_x0_iff {x : List ℝ} {x0 : ℝ} {i0 k : Nat} (hm : Monotonic x)
    (hp0 : x0 < x.getD i0 0) (hmin0 : ∀ j, j < i0 → x.getD j 0 ≤ x0)
    (hk : k < x.length) : x.getD k 0 ≤ x0 ↔ k < i0 := by
  constructor
  · intro hle
    by_contra hge
    push_neg at hge
    have := hm.getD_le hge hk
    linarith
  · exact hmin0 k

lemma ge_x1_iff {x : List ℝ} {x1 : ℝ} {i1 k : Nat} (hm : Monotonic x)
    (hp1 : x1 ≤ x.getD i1 0) (hmin1 : ∀ j, j < i1 → x.getD j 0 < x1)
    (hk : k < x.length) : x1 ≤ x.getD k 0 ↔ i1 ≤ k := by
  constructor
  · intro hle
    by_contra hlt
    push_neg at hlt
    exact absurd hle (not_le.mpr (hmin1 k hlt))
  · intro h
    exact le_trans hp1 (hm.getD_le h hk)

/-- **C2 (amended).**  Under the documented preconditions (monotonic grid
spanning the boundaries, `x0 < x1`), `_transition_function` returns a
sequence `y` of the same length as `x` with `y[k] = y0` wherever
`x[k] ≤ x0`, `y[k] = y1` wherever `x[k] ≥ x1`, and, for interior samples
`x0 < x[k] < x1`, `y[k]` given by the sigmoid formula with
`tau = (x[k]-x0)/(x1-x0)` **subject to the overflow clamp**: when the
exponent `1/tau - 1/(1-tau)` reaches `maxexp` the output is `y0` instead
(that is, `y[k] = transitionAt x0 x1 y0 y1 x[k]`).  The returned `i0` is the
first index with `x > x0` and `i1` is the first index with `x ≥ x1`.
(The unamended claim asserts the bare sigmoid formula for *every* interior
sample; `transition_function_formula_counterexample` refutes that.) -/
theorem transition_function_values (x : List ℝ) (x0 x1 y0 y1 : ℝ)
    (hm : Monotonic x) (hx : x0 < x1)
    (h0 : ∃ k, k < x.length ∧ x0 < x.getD k 0)
    (h1 : ∃ k, k < x.length ∧ x1 ≤ x.getD k 0) :
    ∃ L i0 i1, _transition_function x x0 x1 y0 y1 = some (L, i0, i1) ∧
      L.length = x.length ∧
      (∀ k, k < x.length → x.getD k 0 ≤ x0 → L.getD k 0 = y0) ∧
      (∀ k, k < x.length → x1 ≤ x.getD k 0 → L.getD k 0 = y1) ∧
      (∀ k, k < x.length → x0 < x.getD k 0 → x.getD k 0 < x1 →
        L.getD k 0 = transitionAt x0 x1 y0 y1 (x.getD k 0)) ∧
      (i0 < x.length ∧ x0 < x.getD i0 0 ∧ ∀ j, j < i0 → ¬ x0 < x.getD j 0) ∧
      (i1 < x.length ∧ x1 ≤ x.getD i1 0 ∧ ∀ j, j < i1 → ¬ x1 ≤ x.getD j 0) := by
  obtain ⟨i0, i1, hs0, hs1, h01, h1lt, hp0, hp1, hmin0, hmid, hmin1⟩ :=
    transition_scans x x0 x1 hx h0 h1
  refine ⟨_, i0, i1, transition_eq hs0 hs1, by simp, ?_, ?_, ?_,
    ⟨by omega, hp0, fun j hj => not_lt.mpr (hmin0 j hj)⟩,
    ⟨h1lt, hp1, fun j hj => not_le.mpr (hmin1 j hj)⟩⟩
  · intro k hk hle
    rw [getD_map_range _ _ _ hk, if_pos ((le_x0_iff hm hp0 hmin0 hk).mp hle)]
  · intro k hk hle
    have h := (ge_x1_iff hm hp1 hmin1 hk).mp hle
    rw [getD_map_range _ _ _ hk, if_neg (by omega), if_neg (by omega)]
  · intro k hk hgt hlt
    have ha : i0 ≤ k := by
      by_contra h
      push_neg at h
      exact absurd hgt (not_lt.mpr (hmin0 k h))
    have hb : k < i1 := by
      by_contra h
      push_neg at h
      exact absurd ((ge_x1_iff hm hp1 hmin1 hk).mpr h) (not_le.mpr hlt)
    rw [getD_map_range _ _ _ hk, if_neg (by omega), if_pos hb]

/-- Witness for C2 (amended) at the concrete grid `[0, 2, 5]` with
boundaries `x0 = 1 < x1 = 4`. -/
theorem transition_function_values_witness :
    ∃ L i0 i1, _transition_function [0, 2, 5] 1 4 0 1 = some (L, i0, i1) ∧
      L.length = ([0, 2, 5] : List ℝ).length ∧
      (∀ k, k < ([0, 2, 5] : List ℝ).length → List.getD ([0, 2, 5] : List ℝ) k 0 ≤ 1 →
        L.getD k 0 = 0) ∧
      (∀ k, k < ([0, 2, 5] : List ℝ).length → 4 ≤ List.getD ([0, 2, 5] : List ℝ) k 0 →
        L.getD k 0 = 1) ∧
      (∀ k, k < ([0, 2, 5] : List ℝ).length → 1 < List.getD ([0, 2, 5] : List ℝ) k 0 →
        List.getD ([0, 2, 5] : List ℝ) k 0 < 4 →
        L.getD k 0 = transitionAt 1 4 0 1 (List.getD ([0, 2, 5] : List ℝ) k 0)) ∧
      (i0 < ([0, 2, 5] : List ℝ).length ∧ 1 < List.getD ([0, 2, 5] : List ℝ) i0 0 ∧
        ∀ j, j < i0 → ¬ (1:ℝ) < List.getD ([0, 2, 5] : List ℝ) j 0) ∧
      (i1 < ([0, 2, 5] : List ℝ).length ∧ 4 ≤ List.getD ([0, 2, 5] : List ℝ) i1 0 ∧
        ∀ j, j < i1 → ¬ (4:ℝ) ≤ List.getD ([0, 2, 5] : List ℝ) j 0) :=
  transition_function_values [0, 2, 5] 1 4 0 1
    (by norm_num [Monotonic, List.pairwise_cons])
    (by norm_num)
    ⟨1, by norm_num, show (1:ℝ) < 2 by norm_num⟩
    ⟨2, by norm_num, show (4:ℝ) ≤ 5 by norm_num⟩

lemma maxexp_le_celem :
    maxexp ≤ 1 / ((1/1000 - 0) / (1 - 0)) - 1 / (1 - (1/1000 - 0) / (1 - 0)) := by
  have h2 := Real.log_two_lt_d9
  rw [maxexp]
  have e1 : ((1:ℝ)/1000 - 0) / (1 - 0) = 1/1000 := by norm_num
  rw [e1]
  norm_num
  nlinarith

/-- **C2, counterexample to the claim as stated.**  At the monotonic grid
`[0, 1/1000, 2]` with `x0 = 0 < x1 = 1` (which spans both boundaries),
the interior sample `x[1] = 1/1000` has `x0 < x[1] < x1`, yet the code
returns `0 = y0` there (the exponent `1/tau - 1/(1-tau) = 1000 - 1000/999`
exceeds `maxexp`, so the clamp fires), while the claim's formula
`y0 + (y1-y0)/(1 + exp(1/tau - 1/(1-tau)))` is strictly positive. -/
theorem transition_function_formula_counterexample :
    _transition_function [0, 1/1000, 2] 0 1 0 1 = some ([0, 0, 1], 1, 2) ∧
    (0:ℝ) < 1/1000 ∧ (1/1000:ℝ) < 1 ∧
    (0:ℝ) ≠ 0 + (1 - 0) /
      (1 + Real.exp (1 / ((1/1000 - 0) / (1 - 0)) - 1 / (1 - (1/1000 - 0) / (1 - 0)))) := by
  have hs0 : scanIdx (fun a => (0:ℝ) < a) [0, 1/1000, 2] = some 1 := by
    rw [scanIdx, if_neg (by norm_num), scanIdx, if_pos (by norm_num)]
    rfl
  have hs1 : scanFrom (fun a => (1:ℝ) ≤ a) [0, 1/1000, 2] 1 = some 2 := by
    show (scanIdx (fun a => (1:ℝ) ≤ a) [1/1000, 2]).map (· + 1) = some 2
    rw [scanIdx, if_neg (by norm_num), scanIdx, if_pos (by norm_num)]
    rfl
  refine ⟨?_, by norm_num, by norm_num, ?_⟩
  · rw [transition_eq hs0 hs1]
    have hl : ([(0:ℝ), 1/1000, 2] : List ℝ).length = 3 := rfl
    have hr : List.range 3 = [0, 1, 2] := rfl
    have f0 : (if (0:ℕ) < 1 then (0:ℝ)
        else if 0 < 2 then transitionAt 0 1 0 1 (List.getD [0, 1/1000, 2] 0 0) else 1) = 0 := by
      rw [if_pos (by omega)]
    have f2 : (if (2:ℕ) < 1 then (0:ℝ)
        else if 2 < 2 then transitionAt 0 1 0 1 (List.getD [0, 1/1000, 2] 2 0) else 1) = 1 := by
      rw [if_neg (by omega), if_neg (by omega)]
    have f1 : (if (1:ℕ) < 1 then (0:ℝ)
        else if 1 < 2 then transitionAt 0 1 0 1 (List.getD [0, 1/1000, 2] 1 0) else 1) = 0 := by
      rw [if_neg (by omega), if_pos (by omega)]
      rw [show List.getD [(0:ℝ), 1/1000, 2] 1 0 = 1/1000 from rfl]
      rw [transitionAt, if_pos maxexp_le_celem]
    rw [hl, hr]
    simp only [List.map_cons, List.map_nil]
    rw [f0, f1, f2]
  · have hpos : (0:ℝ) < (1 - 0) /
        (1 + Real.exp (1 / ((1/1000 - 0) / (1 - 0)) - 1 / (1 - (1/1000 - 0) / (1 - 0)))) := by
      positivity
    intro h
    linarith

/-- **C5.**  Under the documented preconditions the kernel always returns a
result (the scans stay in bounds, nothing is raised), and at every interior
sample whose exponent `1/tau - 1/(1-tau)` reaches the module-wide threshold
`maxexp`, the output is set to `y0` directly, without evaluating `exp`. -/
theorem transition_function_overflow_clamp (x : List ℝ) (x0 x1 y0 y1 : ℝ)
    (hm : Monotonic x) (hx : x0 < x1)
    (h0 : ∃ k, k < x.length ∧ x0 < x.getD k 0)
    (h1 : ∃ k, k < x.length ∧ x1 ≤ x.getD k 0) :
    ∃ L i0 i1, _transition_function x x0 x1 y0 y1 = some (L, i0, i1) ∧
      ∀ k, k < x.length → x0 < x.getD k 0 → x.getD k 0 < x1 →
        maxexp ≤ 1 / ((x.getD k 0 - x0) / (x1 - x0)) -
          1 / (1 - (x.getD k 0 - x0) / (x1 - x0)) →
        L.getD k 0 = y0 := by
  obtain ⟨i0, i1, hs0, hs1, h01, h1lt, hp0, hp1, hmin0, hmid, hmin1⟩ :=
    transition_scans x x0 x1 hx h0 h1
  refine ⟨_, i0, i1, transition_eq hs0 hs1, ?_⟩
  intro k hk hgt hlt hexp
  have ha : i0 ≤ k := by
    by_contra h
    push_neg at h
    exact absurd hgt (not_lt.mpr (hmin0 k h))
  have hb : k < i1 := by
    by_contra h
    push_neg at h
    exact absurd ((ge_x1_iff hm hp1 hmin1 hk).mpr h) (not_le.mpr hlt)
  rw [getD_map_range _ _ _ hk, if_neg (by omega), if_pos hb, transitionAt, if_pos hexp]

/-- Witness for C5 at the concrete grid `[0, 1/1000, 2]` with `x0 = 0`,
`x1 = 1`: the sample `1/1000` is interior and its exponent exceeds
`maxexp`. -/
theorem transition_function_overflow_clamp_witness :
    ∃ L i0 i1, _transition_function [0, 1/1000, 2] 0 1 0 1 = some (L, i0, i1) ∧
      ∀ k, k < ([0, 1/1000, 2] : List ℝ).length →
        0 < List.getD ([0, 1/1000, 2] : List ℝ) k 0 →
        List.getD ([0, 1/1000, 2] : List ℝ) k 0 < 1 →
        maxexp ≤ 1 / ((List.getD ([0, 1/1000, 2] : List ℝ) k 0 - 0) / (1 - 0)) -
          1 / (1 - (List.getD ([0, 1/1000, 2] : List ℝ) k 0 - 0) / (1 - 0)) →
        L.getD k 0 = 0 :=
  transition_function_overflow_clamp [0, 1/1000, 2] 0 1 0 1
    (by norm_num [Monotonic, List.pairwise_cons])
    (by norm_num)
    ⟨1, by norm_num, show (0:ℝ) < 1/1000 by norm_num⟩
    ⟨2, by norm_num, show (1:ℝ) ≤ 2 by norm_num⟩

lemma sigmoid_nonneg (d t : ℝ) (hd : 0 ≤ d) : 0 ≤ d / (1 + Real.exp t) :=
  div_nonneg hd (by positivity)

lemma sigmoid_le_self (d t : ℝ) (hd : 0 ≤ d) : d / (1 + Real.exp t) ≤ d :=
  div_le_self hd (by have := Real.exp_pos t; linarith)

lemma sigmoid_mono (d : ℝ) (hd : 0 ≤ d) {s t : ℝ} (hst : s ≤ t) :
    d / (1 + Real.exp t) ≤ d / (1 + Real.exp s) := by
  have h1 : (0:ℝ) < 1 + Real.exp s := by positivity
  have h2 : 1 + Real.exp s ≤ 1 + Real.exp t := by
    have := Real.exp_le_exp.mpr hst
    linarith
  gcongr

lemma sigmoid_nonpos (d t : ℝ) (hd : d ≤ 0) : d / (1 + Real.exp t) ≤ 0 :=
  div_nonpos_of_nonpos_of_nonneg hd (by positivity)

lemma sigmoid_ge_self (d t : ℝ) (hd : d ≤ 0) : d ≤ d / (1 + Real.exp t) := by
  have h1 : (0:ℝ) < 1 + Real.exp t := by positivity
  have h2 : (1 + Real.exp t)⁻¹ ≤ 1 := inv_le_one_of_one_le₀ (by have := Real.exp_pos t; linarith)
  have h3 : 0 < (1 + Real.exp t)⁻¹ := by positivity
  rw [div_eq_mul_inv]
  nlinarith

lemma sigmoid_mono_neg (d : ℝ) (hd : d ≤ 0) {s t : ℝ} (hst : s ≤ t) :
    d / (1 + Real.exp s) ≤ d / (1 + Real.exp t) := by
  have h1 : (0:ℝ) < 1 + Real.exp s := by positivity
  have h2 : 1 + Real.exp s ≤ 1 + Real.exp t := by
    have := Real.exp_le_exp.mpr hst
    linarith
  rw [div_eq_mul_inv, div_eq_mul_inv]
  exact mul_le_mul_of_nonpos_left (inv_anti₀ h1 h2) hd

lemma transitionAt_ge {x0 x1 y0 y1 : ℝ} (hy : y0 ≤ y1) (v : ℝ) :
    y0 ≤ transitionAt x0 x1 y0 y1 v := by
  have hdiv := sigmoid_nonneg (y1 - y0)
    (1 / ((v - x0) / (x1 - x0)) - 1 / (1 - (v - x0) / (x1 - x0))) (by linarith)
  rw [transitionAt]
  split
  · exact le_rfl
  · linarith

lemma transitionAt_le {x0 x1 y0 y1 : ℝ} (hy : y0 ≤ y1) (v : ℝ) :
    transitionAt x0 x1 y0 y1 v ≤ y1 := by
  have hdiv := sigmoid_le_self (y1 - y0)
    (1 / ((v - x0) / (x1 - x0)) - 1 / (1 - (v - x0) / (x1 - x0))) (by linarith)
  rw [transitionAt]
  split
  · exact hy
  · linarith

lemma transitionAt_ge_neg {x0 x1 y0 y1 : ℝ} (hy : y1 ≤ y0) (v : ℝ) :
    y1 ≤ transitionAt x0 x1 y0 y1 v := by
  have hdiv := sigmoid_ge_self (y1 - y0)
    (1 / ((v - x0) / (x1 - x0)) - 1 / (1 - (v - x0) / (x1 - x0))) (by linarith)
  rw [transitionAt]
  split
  · exact hy
  · linarith

lemma transitionAt_le_neg {x0 x1 y0 y1 : ℝ} (hy : y1 ≤ y0) (v : ℝ) :
    transitionAt x0 x1 y0 y1 v ≤ y0 := by
  have hdiv := sigmoid_nonpos (y1 - y0)
    (1 / ((v - x0) / (x1 - x0)) - 1 / (1 - (v - x0) / (x1 - x0))) (by linarith)
  rw [transitionAt]
  split
  · exact le_rfl
  · linarith

/-- The exponent `1/tau - 1/(1-tau)` is antitone in the sample over the open
transition region. -/
lemma exponent_anti {x0 x1 : ℝ} (_hx : x0 < x1) {v w : ℝ} (hv : x0 < v) (hvw : v ≤ w)
    (hw : w < x1) :
    1 / ((w - x0) / (x1 - x0)) - 1 / (1 - (w - x0) / (x1 - x0)) ≤
    1 / ((v - x0) / (x1 - x0)) - 1 / (1 - (v - x0) / (x1 - x0)) := by
  have hc : (0:ℝ) < x1 - x0 := by linarith
  have htv0 : 0 < (v - x0) / (x1 - x0) := div_pos (by linarith) hc
  have htw1 : (w - x0) / (x1 - x0) < 1 := (div_lt_one hc).mpr (by linarith)
  have htvw : (v - x0) / (x1 - x0) ≤ (w - x0) / (x1 - x0) :=
    (div_le_div_iff_of_pos_right hc).mpr (by linarith)
  have h1 : 1 / ((w - x0) / (x1 - x0)) ≤ 1 / ((v - x0) / (x1 - x0)) :=
    one_div_le_one_div_of_le htv0 htvw
  have h2 : 1 / (1 - (v - x0) / (x1 - x0)) ≤ 1 / (1 - (w - x0) / (x1 - x0)) :=
    one_div_le_one_div_of_le (by linarith) (by linarith)
  linarith

lemma transitionAt_mono {x0 x1 y0 y1 : ℝ} (hx : x0 < x1) (hy : y0 ≤ y1) {v w : ℝ}
    (hv : x0 < v) (hvw : v ≤ w) (hw : w < x1) :
    transitionAt x0 x1 y0 y1 v ≤ transitionAt x0 x1 y0 y1 w := by
  have hE := exponent_anti hx hv hvw hw
  rw [transitionAt, transitionAt]
  by_cases hcv : maxexp ≤ 1 / ((v - x0) / (x1 - x0)) - 1 / (1 - (v - x0) / (x1 - x0)) <;>
    by_cases hcw : maxexp ≤ 1 / ((w - x0) / (x1 - x0)) - 1 / (1 - (w - x0) / (x1 - x0))
  · rw [if_pos hcv, if_pos hcw]
  · rw [if_pos hcv, if_neg hcw]
    have := sigmoid_nonneg (y1 - y0)
      (1 / ((w - x0) / (x1 - x0)) - 1 / (1 - (w - x0) / (x1 - x0))) (by linarith)
    linarith
  · exact absurd (le_trans hcw hE) hcv
  · rw [if_neg hcv, if_neg hcw]
    have := sigmoid_mono (y1 - y0) (by linarith) hE
    linarith

lemma transitionAt_anti {x0 x1 y0 y1 : ℝ} (hx : x0 < x1) (hy : y1 ≤ y0) {v w : ℝ}
    (hv : x0 < v) (hvw : v ≤ w) (hw : w < x1) :
    transitionAt x0 x1 y0 y1 w ≤ transitionAt x0 x1 y0 y1 v := by
  have hE := exponent_anti hx hv hvw hw
  rw [transitionAt, transitionAt]
  by_cases hcv : maxexp ≤ 1 / ((v - x0) / (x1 - x0)) - 1 / (1 - (v - x0) / (x1 - x0)) <;>
    by_cases hcw : maxexp ≤ 1 / ((w - x0) / (x1 - x0)) - 1 / (1 - (w - x0) / (x1 - x0))
  · rw [if_pos hcv, if_pos hcw]
  · rw [if_pos hcv, if_neg hcw]
    have := sigmoid_nonpos (y1 - y0)
      (1 / ((w - x0) / (x1 - x0)) - 1 / (1 - (w - x0) / (x1 - x0))) (by linarith)
    linarith
  · exact absurd (le_trans hcw hE) hcv
  · rw [if_neg hcv, if_neg hcw]
    have := sigmoid_mono_neg (y1 - y0) (by linarith) hE
    linarith

/-- **C8.**  Under the documented preconditions, the transition output is
non-decreasing over the whole grid when `y0 < y1` — across the clamped
region, the interior and both constant tails — and non-increasing when
`y0 > y1`. -/
theorem transition_function_monotonicity (x : List ℝ) (x0 x1 y0 y1 : ℝ)
    (hm : Monotonic x) (hx : x0 < x1)
    (h0 : ∃ k, k < x.length ∧ x0 < x.getD k 0)
    (h1 : ∃ k, k < x.length ∧ x1 ≤ x.getD k 0) :
    ∃ L i0 i1, _transition_function x x0 x1 y0 y1 = some (L, i0, i1) ∧
      (y0 < y1 → ∀ j k, j ≤ k → k < x.length → L.getD j 0 ≤ L.getD k 0) ∧
      (y1 < y0 → ∀ j k, j ≤ k → k < x.length → L.getD k 0 ≤ L.getD j 0) := by
  obtain ⟨i0, i1, hs0, hs1, h01, h1lt, hp0, hp1, hmin0, hmid, hmin1⟩ :=
    transition_scans x x0 x1 hx h0 h1
  have hint : ∀ k, i0 ≤ k → k < i1 → x0 < x.getD k 0 ∧ x.getD k 0 < x1 := by
    intro k hk1 hk2
    have hkn : k < x.length := by omega
    exact ⟨lt_of_lt_of_le hp0 (hm.getD_le hk1 hkn), hmid k hk1 hk2⟩
  refine ⟨_, i0, i1, transition_eq hs0 hs1, ?_, ?_⟩
  · intro hy j k hjk hk
    have hjn : j < x.length := lt_of_le_of_lt hjk hk
    rw [getD_map_range _ _ _ hjn, getD_map_range _ _ _ hk]
    by_cases hj0 : j < i0
    · rw [if_pos hj0]
      by_cases hk0 : k < i0
      · rw [if_pos hk0]
      · rw [if_neg hk0]
        by_cases hk1 : k < i1
        · rw [if_pos hk1]
          exact transitionAt_ge (le_of_lt hy) _
        · rw [if_neg hk1]
          exact le_of_lt hy
    · have hj0' : i0 ≤ j := by omega
      rw [if_neg hj0]
      by_cases hj1 : j < i1
      · rw [if_pos hj1, if_neg (show ¬ k < i0 by omega)]
        by_cases hk1 : k < i1
        · rw [if_pos hk1]
          obtain ⟨ha, _⟩ := hint j hj0' hj1
          obtain ⟨_, hd⟩ := hint k (by omega) hk1
          exact transitionAt_mono hx (le_of_lt hy) ha (hm.getD_le hjk hk) hd
        · rw [if_neg hk1]
          exact transitionAt_le (le_of_lt hy) _
      · rw [if_neg hj1, if_neg (show ¬ k < i0 by omega), if_neg (show ¬ k < i1 by omega)]
  · intro hy j k hjk hk
    have hjn : j < x.length := lt_of_le_of_lt hjk hk
    rw [getD_map_range _ _ _ hjn, getD_map_range _ _ _ hk]
    by_cases hj0 : j < i0
    · rw [if_pos hj0]
      by_cases hk0 : k < i0
      · rw [if_pos hk0]
      · rw [if_neg hk0]
        by_cases hk1 : k < i1
        · rw [if_pos hk1]
          exact transitionAt_le_neg (le_of_lt hy) _
        · rw [if_neg hk1]
          exact le_of_lt hy
    · have hj0' : i0 ≤ j := by omega
      rw [if_neg hj0]
      by_cases hj1 : j < i1
      · rw [if_pos hj1, if_neg (show ¬ k < i0 by omega)]
        by_cases hk1 : k < i1
        · rw [if_pos hk1]
          obtain ⟨ha, _⟩ := hint j hj0' hj1
          obtain ⟨_, hd⟩ := hint k (by omega) hk1
          exact transitionAt_anti hx (le_of_lt hy) ha (hm.getD_le hjk hk) hd
        · rw [if_neg hk1]
          exact transitionAt_ge_neg (le_of_lt hy) _
      · rw [if_neg hj1, if_neg (show ¬ k < i0 by omega), if_neg (show ¬ k < i1 by omega)]

/-- Witness for C8 at the concrete grid `[0, 2, 5]` with `x0 = 1 < x1 = 4`. -/
theorem transition_function_monotonicity_witness :
    ∃ L i0 i1, _transition_function [0, 2, 5] 1 4 0 1 = some (L, i0, i1) ∧
      ((0:ℝ) < 1 → ∀ j k, j ≤ k → k < ([0, 2, 5] : List ℝ).length →
        L.getD j 0 ≤ L.getD k 0) ∧
      ((1:ℝ) < 0 → ∀ j k, j ≤ k → k < ([0, 2, 5] : List ℝ).length →
        L.getD k 0 ≤ L.getD j 0) :=
  transition_function_monotonicity [0, 2, 5] 1 4 0 1
    (by norm_num [Monotonic, List.pairwise_cons])
    (by norm_num)
    ⟨1, by norm_num, show (1:ℝ) < 2 by norm_num⟩
    ⟨2, by norm_num, show (4:ℝ) ≤ 5 by norm_num⟩

/-- **C9.**  First conjunct: when the monotonic grid contains a sample
strictly above `x0` and a sample at or above `x1`, both boundary scans of
`_transition_function` and of `transition_function_derivative` find their
index within bounds (`i0 ≤ i1 < length`), so the out-of-bounds branch
(`none`) is unreachable.  Second and third conjuncts: when no sample exceeds
a boundary, the corresponding linear scan runs past the end of the sequence
(modelled by `none`). -/
theorem boundary_scan_safety :
    (∀ (x : List ℝ) (x0 x1 y0 y1 : ℝ), Monotonic x →
      (∃ k, k < x.length ∧ x0 < x.getD k 0) →
      (∃ k, k < x.length ∧ x1 ≤ x.getD k 0) →
      ∃ L i0 i1 D, _transition_function x x0 x1 y0 y1 = some (L, i0, i1) ∧
        transition_function_derivative x x0 x1 y0 y1 = some D ∧
        i0 ≤ i1 ∧ i1 < x.length) ∧
    (∀ (x : List ℝ) (x0 x1 y0 y1 : ℝ), (∀ a ∈ x, a ≤ x0) →
      _transition_function x x0 x1 y0 y1 = none ∧
      transition_function_derivative x x0 x1 y0 y1 = none) ∧
    (∀ (x : List ℝ) (x0 x1 y0 y1 : ℝ), (∀ a ∈ x, a < x1) →
      _transition_function x x0 x1 y0 y1 = none ∧
      transition_function_derivative x x0 x1 y0 y1 = none) := by
  refine ⟨?_, ?_, ?_⟩
  · intro x x0 x1 y0 y1 _hm h0 h1
    obtain ⟨k0, hk0, hp0⟩ := h0
    obtain ⟨i0, hi0⟩ := scanIdx_some x ⟨x.getD k0 0, getD_mem _ _ _ hk0, hp0⟩
    have hi0lt := scanIdx_lt_length x hi0
    have hi0p := scanIdx_prop x hi0
    have hi0min := scanIdx_min x hi0
    obtain ⟨k1, hk1, hp1⟩ := h1
    have hex : ∃ k, i0 ≤ k ∧ k < x.length ∧ x1 ≤ x.getD k 0 := by
      rcases Nat.lt_or_ge k1 i0 with h | h
      · have hle : x.getD k1 0 ≤ x0 := not_lt.mp (hi0min k1 h)
        exact ⟨i0, le_rfl, hi0lt, by linarith⟩
      · exact ⟨k1, h, hk1, hp1⟩
    obtain ⟨i1, hsf, hi01, hi1lt, _, _⟩ := scanFrom_some x i0 hex
    exact ⟨_, i0, i1, _, transition_eq hi0 hsf, transition_derivative_eq hi0 hsf,
      hi01, hi1lt⟩
  · intro x x0 x1 y0 y1 h
    have hn : scanIdx (fun a => x0 < a) x = none :=
      scanIdx_none x (fun a ha => not_lt.mpr (h a ha))
    constructor
    · simp only [_transition_function, hn]
    · simp only [transition_function_derivative, hn]
  · intro x x0 x1 y0 y1 h
    cases hs : scanIdx (fun a => x0 < a) x with
    | none =>
      constructor
      · simp only [_transition_function, hs]
      · simp only [transition_function_derivative, hs]
    | some i0 =>
      have hn : scanFrom (fun a => x1 ≤ a) x i0 = none :=
        scanFrom_none x i0 (fun a ha => not_le.mpr (h a ha))
      constructor
      · simp only [_transition_function, hs, hn]
      · simp only [transition_function_derivative, hs, hn]

/-- Witness for C9: the scans succeed on `[0, 2, 5]` with `x0 = 1`, `x1 = 4`,
and run past the end when every sample is at most `x0 = 9` (resp. below
`x1 = 9`). -/
theorem boundary_scan_safety_witness :
    (∃ L i0 i1 D, _transition_function [0, 2, 5] 1 4 0 1 = some (L, i0, i1) ∧
      transition_function_derivative [0, 2, 5] 1 4 0 1 = some D ∧
      i0 ≤ i1 ∧ i1 < ([0, 2, 5] : List ℝ).length) ∧
    (_transition_function [0, 2, 5] 9 10 0 1 = none ∧
      transition_function_derivative [0, 2, 5] 9 10 0 1 = none) ∧
    (_transition_function [0, 2, 5] (-1) 9 0 1 = none ∧
      transition_function_derivative [0, 2, 5] (-1) 9 0 1 = none) :=
  ⟨boundary_scan_safety.1 [0, 2, 5] 1 4 0 1
      (by norm_num [Monotonic, List.pairwise_cons])
      ⟨1, by norm_num, show (1:ℝ) < 2 by norm_num⟩
      ⟨2, by norm_num, show (4:ℝ) ≤ 5 by norm_num⟩,
    boundary_scan_safety.2.1 [0, 2, 5] 9 10 0 1
      (by norm_num),
    boundary_scan_safety.2.2 [0, 2, 5] (-1) 9 0 1
      (by norm_num)⟩

/-- `bump_function`: four boundary scans (`x[i] <= x0`, `x[i] < x1`,
`x[i] <= x2`, `x[i] < x3`) and five fill regions: `y0`, rising transition,
`y12` plateau, falling transition, `y3`.  As with `_transition_function`, a
scan that runs past the end of the array yields `none`. -/
noncomputable def bump_function (x : List ℝ) (x0 x1 x2 x3 y0 y12 y3 : ℝ) :
    Option (List ℝ) :=
  match scanIdx (fun a => x0 < a) x with
  | none => none
  | some iA0 =>
    match scanFrom (fun a => x1 ≤ a) x iA0 with
    | none => none
    | some iA1 =>
      match scanFrom (fun a => x2 < a) x iA1 with
      | none => none
      | some iB0 =>
        match scanFrom (fun a => x3 ≤ a) x iB0 with
        | none => none
        | some iB1 =>
          some ((List.range x.length).map fun k =>
            if k < iA0 then y0
            else if k < iA1 then transitionAt x0 x1 y0 y12 (x.getD k 0)
            else if k < iB0 then y12
            else if k < iB1 then transitionAt x2 x3 y12 y3 (x.getD k 0)
            else y3)

lemma bump_eq {x : List ℝ} {x0 x1 x2 x3 y0 y12 y3 : ℝ} {iA0 iA1 iB0 iB1 : Nat}
    (h0 : scanIdx (fun a => x0 < a) x = some iA0)
    (h1 : scanFrom (fun a => x1 ≤ a) x iA0 = some iA1)
    (h2 : scanFrom (fun a => x2 < a) x iA1 = some iB0)
    (h3 : scanFrom (fun a => x3 ≤ a) x iB0 = some iB1) :
    bump_function x x0 x1 x2 x3 y0 y12 y3 =
      some ((List.range x.length).map fun k =>
        if k < iA0 then y0
        else if k < iA1 then transitionAt x0 x1 y0 y12 (x.getD k 0)
        else if k < iB0 then y12
        else if k < iB1 then transitionAt x2 x3 y12 y3 (x.getD k 0)
        else y3) := by
  simp only [bump_function, h0, h1, h2, h3]

/-- **C7 (amended).**  For a monotonic grid spanning the four boundaries and
ordered boundaries with a *strict* first inequality, `x0 < x1 ≤ x2 ≤ x3`,
the standard bump `bump(x, x0, x1, x2, x3, 0, 1, 0)` agrees with the rising
transition `transition(x, x0, x1, 0, 1)` at every sample with `x < x2`,
agrees with the falling transition `transition(x, x2, x3, 1, 0)` at every
sample with `x ≥ x1`, and equals `1` at every sample between `x1` and `x2`.
(The unamended claim allows `x0 = x1`, where the decomposition fails;
`bump_function_decomposition_counterexample` refutes it.) -/
theorem bump_function_decomposition (x : List ℝ) (x0 x1 x2 x3 : ℝ)
    (hm : Monotonic x) (h01 : x0 < x1) (h12 : x1 ≤ x2) (_h23 : x2 ≤ x3)
    (e0 : ∃ k, k < x.length ∧ x0 < x.getD k 0)
    (e1 : ∃ k, k < x.length ∧ x1 ≤ x.getD k 0)
    (e2 : ∃ k, k < x.length ∧ x2 < x.getD k 0)
    (e3 : ∃ k, k < x.length ∧ x3 ≤ x.getD k 0) :
    ∃ B LA LB iA0 iA1 iB0 iB1,
      bump_function x x0 x1 x2 x3 0 1 0 = some B ∧
      _transition_function x x0 x1 0 1 = some (LA, iA0, iA1) ∧
      _transition_function x x2 x3 1 0 = some (LB, iB0, iB1) ∧
      (∀ k, k < x.length → x.getD k 0 < x2 → B.getD k 0 = LA.getD k 0) ∧
      (∀ k, k < x.length → x1 ≤ x.getD k 0 → B.getD k 0 = LB.getD k 0) ∧
      (∀ k, k < x.length → x1 ≤ x.getD k 0 → x.getD k 0 ≤ x2 → B.getD k 0 = 1) := by
  obtain ⟨iA0, iA1, hsA0, hsA1, hA01, hA1lt, hpA0, hpA1, hminA0, hmidA, hminA1⟩ :=
    transition_scans x x0 x1 h01 e0 e1
  obtain ⟨m2, hm2, hp2⟩ := e2
  have hex2 : ∃ k, iA1 ≤ k ∧ k < x.length ∧ x2 < x.getD k 0 := by
    rcases Nat.lt_or_ge m2 iA1 with h | h
    · have := hminA1 m2 h
      exact absurd hp2 (not_lt.mpr (by linarith))
    · exact ⟨m2, h, hm2, hp2⟩
  obtain ⟨iB0, hsB0, hAB, hB0lt, hpB0, hminB0⟩ := scanFrom_some x iA1 hex2
  obtain ⟨m3, hm3, hp3⟩ := e3
  have hex3 : ∃ k, iB0 ≤ k ∧ k < x.length ∧ x3 ≤ x.getD k 0 := by
    rcases Nat.lt_or_ge m3 iB0 with h | h
    · exact ⟨iB0, le_rfl, hB0lt, le_trans hp3 (hm.getD_le (le_of_lt h) hB0lt)⟩
    · exact ⟨m3, h, hm3, hp3⟩
  obtain ⟨iB1, hsB1, hBB, hB1lt, hpB1, hminB1⟩ := scanFrom_some x iB0 hex3
  have hminGlobal : ∀ j, j < iB0 → ¬ x2 < x.getD j 0 := by
    intro j hj
    rcases Nat.lt_or_ge j iA1 with h | h
    · exact not_lt.mpr (by have := hminA1 j h; linarith)
    · exact hminB0 j h hj
  have hsB0' : scanIdx (fun a => x2 < a) x = some iB0 :=
    scanIdx_first x iB0 hB0lt hpB0 hminGlobal
  refine ⟨_, _, _, iA0, iA1, iB0, iB1, bump_eq hsA0 hsA1 hsB0 hsB1,
    transition_eq hsA0 hsA1, transition_eq hsB0' hsB1, ?_, ?_, ?_⟩
  · intro k hk hlt2
    have hkB0 : k < iB0 := by
      by_contra hcon
      push_neg at hcon
      exact absurd hlt2 (not_lt.mpr (le_trans (le_of_lt hpB0) (hm.getD_le hcon hk)))
    rw [getD_map_range _ _ _ hk, getD_map_range _ _ _ hk]
    by_cases hk0 : k < iA0
    · rw [if_pos hk0, if_pos hk0]
    · rw [if_neg hk0, if_neg hk0]
      by_cases hk1 : k < iA1
      · rw [if_pos hk1, if_pos hk1]
      · rw [if_neg hk1, if_neg hk1, if_pos hkB0]
  · intro k hk hge1
    have hkA1 : iA1 ≤ k := by
      by_contra hcon
      push_neg at hcon
      exact absurd hge1 (not_le.mpr (hminA1 k hcon))
    rw [getD_map_range _ _ _ hk, getD_map_range _ _ _ hk]
    rw [if_neg (show ¬ k < iA0 by omega), if_neg (show ¬ k < iA1 by omega)]
  · intro k hk hge1 hle2
    have hkA1 : iA1 ≤ k := by
      by_contra hcon
      push_neg at hcon
      exact absurd hge1 (not_le.mpr (hminA1 k hcon))
    have hkB0 : k < iB0 := by
      by_contra hcon
      push_neg at hcon
      have : x2 < x.getD k 0 := lt_of_lt_of_le hpB0 (hm.getD_le hcon hk)
      linarith
    rw [getD_map_range _ _ _ hk, if_neg (show ¬ k < iA0 by omega),
      if_neg (show ¬ k < iA1 by omega), if_pos hkB0]

/-- **C7, counterexample to the claim as stated.**  The claim only requires
`x0 ≤ x1 ≤ x2 ≤ x3`.  With the degenerate ordering `x0 = x1 = 0` on the
monotonic grid `[-1, 0, 1/2, 1, 2]` (and `x2 = 1`, `x3 = 2`), the sample
`x[1] = 0` satisfies `x[1] ≥ x1` and `x1 ≤ x[1] ≤ x2`, yet the bump value at
index 1 is `0` while `transition(x, x2, x3, 1, 0)` is `1` there — both the
"equals the falling transition for `x ≥ x1`" part and the "equals 1 between
`x1` and `x2`" part fail. -/
theorem bump_function_decomposition_counterexample :
    Monotonic [-1, 0, 1/2, 1, 2] ∧
    ((0:ℝ) ≤ 0 ∧ (0:ℝ) ≤ 1 ∧ (1:ℝ) ≤ 2) ∧
    bump_function [-1, 0, 1/2, 1, 2] 0 0 1 2 0 1 0 = some [0, 0, 1, 1, 0] ∧
    _transition_function [-1, 0, 1/2, 1, 2] 1 2 1 0 = some ([1, 1, 1, 1, 0], 4, 4) ∧
    (0:ℝ) ≤ List.getD ([-1, 0, 1/2, 1, 2] : List ℝ) 1 0 ∧
    List.getD ([-1, 0, 1/2, 1, 2] : List ℝ) 1 0 ≤ 1 ∧
    List.getD ([0, 0, 1, 1, 0] : List ℝ) 1 0 ≠ List.getD ([1, 1, 1, 1, 0] : List ℝ) 1 0 ∧
    List.getD ([0, 0, 1, 1, 0] : List ℝ) 1 0 ≠ 1 := by
  have s1 : scanIdx (fun a => (0:ℝ) < a) [-1, 0, 1/2, 1, 2] = some 2 := by
    rw [scanIdx, if_neg (by norm_num), scanIdx, if_neg (by norm_num),
      scanIdx, if_pos (by norm_num)]
    rfl
  have s2 : scanFrom (fun a => (0:ℝ) ≤ a) [-1, 0, 1/2, 1, 2] 2 = some 2 := by
    show (scanIdx (fun a => (0:ℝ) ≤ a) [1/2, 1, 2]).map (· + 2) = some 2
    rw [scanIdx, if_pos (by norm_num)]
    rfl
  have s3 : scanFrom (fun a => (1:ℝ) < a) [-1, 0, 1/2, 1, 2] 2 = some 4 := by
    show (scanIdx (fun a => (1:ℝ) < a) [1/2, 1, 2]).map (· + 2) = some 4
    rw [scanIdx, if_neg (by norm_num), scanIdx, if_neg (by norm_num),
      scanIdx, if_pos (by norm_num)]
    rfl
  have s4 : scanFrom (fun a => (2:ℝ) ≤ a) [-1, 0, 1/2, 1, 2] 4 = some 4 := by
    show (scanIdx (fun a => (2:ℝ) ≤ a) [2]).map (· + 4) = some 4
    rw [scanIdx, if_pos (by norm_num)]
    rfl
  have t1 : scanIdx (fun a => (1:ℝ) < a) [-1, 0, 1/2, 1, 2] = some 4 := by
    rw [scanIdx, if_neg (by norm_num), scanIdx, if_neg (by norm_num),
      scanIdx, if_neg (by norm_num), scanIdx, if_neg (by norm_num),
      scanIdx, if_pos (by norm_num)]
    rfl
  refine ⟨?_, ⟨le_rfl, by norm_num, by norm_num⟩, ?_, ?_, le_rfl, by norm_num,
    by norm_num, by norm_num⟩
  · norm_num [Monotonic, List.pairwise_cons]
  · rw [bump_eq s1 s2 s3 s4]
    have hl : ([(-1:ℝ), 0, 1/2, 1, 2] : List ℝ).length = 5 := rfl
    have hr : List.range 5 = [0, 1, 2, 3, 4] := rfl
    rw [hl, hr]
    simp only [List.map_cons, List.map_nil]
    norm_num
  · rw [transition_eq t1 s4]
    have hl : ([(-1:ℝ), 0, 1/2, 1, 2] : List ℝ).length = 5 := rfl
    have hr : List.range 5 = [0, 1, 2, 3, 4] := rfl
    rw [hl, hr]
    simp only [List.map_cons, List.map_nil]
    norm_num

/-- Witness for C7 (amended) at the grid `[0, 2, 5, 7, 9]` with boundaries
`1 < 4 ≤ 6 ≤ 8`. -/
theorem bump_function_decomposition_witness :
    ∃ B LA LB iA0 iA1 iB0 iB1,
      bump_function [0, 2, 5, 7, 9] 1 4 6 8 0 1 0 = some B ∧
      _transition_function [0, 2, 5, 7, 9] 1 4 0 1 = some (LA, iA0, iA1) ∧
      _transition_function [0, 2, 5, 7, 9] 6 8 1 0 = some (LB, iB0, iB1) ∧
      (∀ k, k < ([0, 2, 5, 7, 9] : List ℝ).length →
        List.getD ([0, 2, 5, 7, 9] : List ℝ) k 0 < 6 → B.getD k 0 = LA.getD k 0) ∧
      (∀ k, k < ([0, 2, 5, 7, 9] : List ℝ).length →
        4 ≤ List.getD ([0, 2, 5, 7, 9] : List ℝ) k 0 → B.getD k 0 = LB.getD k 0) ∧
      (∀ k, k < ([0, 2, 5, 7, 9] : List ℝ).length →
        4 ≤ List.getD ([0, 2, 5, 7, 9] : List ℝ) k 0 →
        List.getD ([0, 2, 5, 7, 9] : List ℝ) k 0 ≤ 6 → B.getD k 0 = 1) :=
  bump_function_decomposition [0, 2, 5, 7, 9] 1 4 6 8
    (by norm_num [Monotonic, List.pairwise_cons])
    (by norm_num) (by norm_num) (by norm_num)
    ⟨1, by norm_num, show (1:ℝ) < 2 by norm_num⟩
    ⟨2, by norm_num, show (4:ℝ) ≤ 5 by norm_num⟩
    ⟨3, by norm_num, show (6:ℝ) < 7 by norm_num⟩
    ⟨4, by norm_num, show (8:ℝ) ≤ 9 by norm_num⟩

/-! ### TransitionIntegrator: `transition_to_constant` -/

/-- Python slice `l[a:b]` (for `0 ≤ a ≤ b`). -/
def listSlice (l : List ℝ) (a b : Nat) : List ℝ := (l.drop a).take (b - a)

/-- The in-place statement `f_transitioned[i1:i2] -= correction`: entry `k`
of the base buffer loses `correction[k - i1]` when `i1 ≤ k < i2` and is kept
otherwise. -/
def subtractSlice (base correction : List ℝ) (i1 i2 : Nat) : List ℝ :=
  (List.range base.length).map fun k =>
    if i1 ≤ k ∧ k < i2 then base.getD k 0 - correction.getD (k - i1) 0
    else base.getD k 0

/-- The in-place statement `f_transitioned[i2:] = f_transitioned[i2-1]`:
every entry from `i2` on is replaced by the entry at `i2 - 1` (Python's
index `-1`, i.e. the last entry, when `i2 = 0`). -/
def holdFrom (l : List ℝ) (i2 : Nat) : List ℝ :=
  (List.range l.length).map fun k =>
    if i2 ≤ k then l.getD (if i2 = 0 then l.length - 1 else i2 - 1) 0 else l.getD k 0

lemma length_subtractSlice (b c : List ℝ) (i1 i2 : Nat) :
    (subtractSlice b c i1 i2).length = b.length := by
  simp [subtractSlice]

lemma getD_subtractSlice (b c : List ℝ) (i1 i2 k : Nat) (hk : k < b.length) :
    (subtractSlice b c i1 i2).getD k 0 =
      if i1 ≤ k ∧ k < i2 then b.getD k 0 - c.getD (k - i1) 0 else b.getD k 0 :=
  getD_map_range _ _ _ hk

lemma length_holdFrom (l : List ℝ) (i2 : Nat) : (holdFrom l i2).length = l.length := by
  simp [holdFrom]

lemma getD_holdFrom (l : List ℝ) (i2 k : Nat) (hk : k < l.length) :
    (holdFrom l i2).getD k 0 =
      if i2 ≤ k then l.getD (if i2 = 0 then l.length - 1 else i2 - 1) 0
      else l.getD k 0 :=
  getD_map_range _ _ _ hk

lemma getD_zipWith_mul (f g : List ℝ) (k : Nat) (hf : k < f.length) (hg : k < g.length) :
    (List.zipWith (· * ·) f g).getD k 0 = f.getD k 0 * g.getD k 0 := by
  induction f generalizing g k with
  | nil => simp at hf
  | cons a f ih =>
    cases g with
    | nil => simp at hg
    | cons b g =>
      cases k with
      | zero => simp
      | succ k =>
        simp only [List.zipWith_cons_cons, List.getD_cons_succ]
        exact ih g k (by simpa using hf) (by simpa using hg)

/-- `transition_to_constant`, parameterised over the external integration
primitive `II` (`quaternion.indefinite_integral`, an external collaborator of
this core, per §1/§6 of the specification): build the falling window
(`y0 = 1`, `y1 = 0`) and its derivative over `(t1, t2)`, form
`f * transition`, subtract the running integral of `f * transition_dot` on
the slice `[i1:i2)`, and hold the value at index `i2 - 1` from `i2` on. -/
noncomputable def transition_to_constant (II : List ℝ → List ℝ → List ℝ)
    (f t : List ℝ) (t1 t2 : ℝ) : Option (List ℝ) :=
  match _transition_function t t1 t2 1 0 with
  | none => none
  | some (transition, i1, i2) =>
    match transition_function_derivative t t1 t2 1 0 with
    | none => none
    | some transition_dot =>
      some (holdFrom (subtractSlice (List.zipWith (· * ·) f transition)
        (II (List.zipWith (· * ·) (listSlice f i1 i2) (listSlice transition_dot i1 i2))
          (listSlice t i1 i2)) i1 i2) i2)

/-- **C6.**  For `f` over a monotonic grid `t` with `t1 < t2` inside the
grid's covered range, `transition_to_constant` returns `f_out` with
`f_out[k] = f[k]` for every `k` with `t[k] ≤ t1`, and `f_out[k]` equal to the
single value `f_out[i2-1]` for every `k ≥ i2`, where `i2` is the first index
with `t ≥ t2` — exactly constant after `t2`. -/
theorem transition_to_constant_correct (II : List ℝ → List ℝ → List ℝ)
    (f t : List ℝ) (t1 t2 : ℝ) (hlen : f.length = t.length) (hm : Monotonic t)
    (h12 : t1 < t2) (_hn : 0 < t.length) (hlow : t.getD 0 0 ≤ t1)
    (h1 : ∃ k, k < t.length ∧ t1 < t.getD k 0)
    (h2 : ∃ k, k < t.length ∧ t2 ≤ t.getD k 0) :
    ∃ g i2, transition_to_constant II f t t1 t2 = some g ∧
      g.length = t.length ∧
      i2 < t.length ∧ t2 ≤ t.getD i2 0 ∧ (∀ j, j < i2 → t.getD j 0 < t2) ∧
      (∀ k, k < t.length → t.getD k 0 ≤ t1 → g.getD k 0 = f.getD k 0) ∧
      (∀ k, i2 ≤ k → k < t.length → g.getD k 0 = g.getD (i2 - 1) 0) := by
  obtain ⟨i1, i2, hs1, hs2, h01, h2lt, hp1, hp2, hmin1, hmid, hmin2⟩ :=
    transition_scans t t1 t2 h12 h1 h2
  have htf := @transition_eq t t1 t2 1 0 i1 i2 hs1 hs2
  have htfd := @transition_derivative_eq t t1 t2 1 0 i1 i2 hs1 hs2
  have hi1pos : 1 ≤ i1 := by
    rcases Nat.eq_zero_or_pos i1 with h | h
    · rw [h] at hp1
      linarith
    · exact h
  have hi2pos : 1 ≤ i2 := le_trans hi1pos h01
  have hTRlen : ((List.range t.length).map fun k =>
      if k < i1 then (1:ℝ)
      else if k < i2 then transitionAt t1 t2 1 0 (t.getD k 0)
      else 0).length = t.length := by
    simp
  have hBlen : (List.zipWith (· * ·) f ((List.range t.length).map fun k =>
      if k < i1 then (1:ℝ)
      else if k < i2 then transitionAt t1 t2 1 0 (t.getD k 0)
      else 0)).length = t.length := by
    rw [List.length_zipWith, hTRlen, hlen]
    exact Nat.min_self _
  have hSlen : ∀ c : List ℝ, (subtractSlice (List.zipWith (· * ·) f
      ((List.range t.length).map fun k =>
        if k < i1 then (1:ℝ)
        else if k < i2 then transitionAt t1 t2 1 0 (t.getD k 0)
        else 0)) c i1 i2).length = t.length := by
    intro c
    rw [length_subtractSlice, hBlen]
  have hred : transition_to_constant II f t t1 t2 =
      some (holdFrom (subtractSlice (List.zipWith (· * ·) f
          ((List.range t.length).map fun k =>
            if k < i1 then (1:ℝ)
            else if k < i2 then transitionAt t1 t2 1 0 (t.getD k 0)
            else 0))
        (II (List.zipWith (· * ·) (listSlice f i1 i2)
          (listSlice ((List.range t.length).map fun k =>
            if i1 ≤ k ∧ k < i2 then transitionDerivAt t1 t2 1 0 (t.getD k 0) else 0) i1 i2))
          (listSlice t i1 i2)) i1 i2) i2) := by
    simp only [transition_to_constant, htf, htfd]
  refine ⟨_, i2, hred, ?_, h2lt, hp2, hmin2, ?_, ?_⟩
  · rw [length_holdFrom, hSlen]
  · intro k hk hle
    have hk1 : k < i1 := (le_x0_iff hm hp1 hmin1 hk).mp hle
    rw [getD_holdFrom _ _ _ (by rw [hSlen]; exact hk),
      if_neg (show ¬ i2 ≤ k by omega),
      getD_subtractSlice _ _ _ _ _ (by rw [hBlen]; exact hk),
      if_neg (by omega),
      getD_zipWith_mul _ _ _ (by omega) (by rw [hTRlen]; exact hk),
      getD_map_range _ _ _ hk, if_pos hk1, mul_one]
  · intro k hk1 hk2
    rw [getD_holdFrom _ _ _ (by rw [hSlen]; exact hk2), if_pos hk1,
      getD_holdFrom _ _ _ (by rw [hSlen]; omega),
      if_neg (show ¬ i2 ≤ i2 - 1 by omega), if_neg (show ¬ i2 = 0 by omega)]

/-- Witness for C6 at `f = [1, 1, 1]`, `t = [0, 2, 5]`, `t1 = 1`, `t2 = 4`,
with the trivial integrator `fun _ _ => []`. -/
theorem transition_to_constant_correct_witness :
    ∃ g i2, transition_to_constant (fun _ _ => []) [1, 1, 1] [0, 2, 5] 1 4 = some g ∧
      g.length = ([0, 2, 5] : List ℝ).length ∧
      i2 < ([0, 2, 5] : List ℝ).length ∧
      4 ≤ List.getD ([0, 2, 5] : List ℝ) i2 0 ∧
      (∀ j, j < i2 → List.getD ([0, 2, 5] : List ℝ) j 0 < 4) ∧
      (∀ k, k < ([0, 2, 5] : List ℝ).length → List.getD ([0, 2, 5] : List ℝ) k 0 ≤ 1 →
        g.getD k 0 = List.getD ([1, 1, 1] : List ℝ) k 0) ∧
      (∀ k, i2 ≤ k → k < ([0, 2, 5] : List ℝ).length →
        g.getD k 0 = g.getD (i2 - 1) 0) :=
  transition_to_constant_correct (fun _ _ => []) [1, 1, 1] [0, 2, 5] 1 4 rfl
    (by norm_num [Monotonic, List.pairwise_cons]) (by norm_num) (by norm_num)
    (show (0:ℝ) ≤ 1 by norm_num)
    ⟨1, by norm_num, show (1:ℝ) < 2 by norm_num⟩
    ⟨2, by norm_num, show (4:ℝ) ≤ 5 by norm_num⟩

/-- The named input buffers of `transition_to_constant`'s frame. -/
structure Buffers where
  fbuf : List ℝ
  tbuf : List ℝ

/-- State-passing rendering of `transition_to_constant`, making the write
target of each statement explicit: `f_transitioned = f * transition`
allocates a fresh buffer, and both in-place statements
(`f_transitioned[i1:i2] -= ...` and `f_transitioned[i2:] = ...`) write that
fresh buffer only; no statement writes `f` or `t`, which are returned
unchanged alongside the output — unlike the in-place codec
`xor_timeseries`, which writes its input. -/
noncomputable def transition_to_constant_state (II : List ℝ → List ℝ → List ℝ)
    (σ : Buffers) (t1 t2 : ℝ) : Option (Buffers × List ℝ) :=
  match _transition_function σ.tbuf t1 t2 1 0 with
  | none => none
  | some (transition, i1, i2) =>
    match transition_function_derivative σ.tbuf t1 t2 1 0 with
    | none => none
    | some transition_dot =>
      some ({ fbuf := σ.fbuf, tbuf := σ.tbuf },
        holdFrom (subtractSlice (List.zipWith (· * ·) σ.fbuf transition)
          (II (List.zipWith (· * ·) (listSlice σ.fbuf i1 i2)
            (listSlice transition_dot i1 i2)) (listSlice σ.tbuf i1 i2)) i1 i2) i2)

/-- **C10.**  `transition_to_constant` leaves both input arrays unmodified:
in the state embedding that tracks each statement's write target, the final
`f` and `t` buffers equal the initial ones, and the output is the freshly
allocated array computed by the value-level `transition_to_constant`. -/
theorem transition_to_constant_frame (II : List ℝ → List ℝ → List ℝ)
    (σ : Buffers) (t1 t2 : ℝ) :
    (transition_to_constant_state II σ t1 t2).elim True fun r =>
      r.1.fbuf = σ.fbuf ∧ r.1.tbuf = σ.tbuf ∧
      transition_to_constant II σ.fbuf σ.tbuf t1 t2 = some r.2 := by
  unfold transition_to_constant_state transition_to_constant
  cases h1 : _transition_function σ.tbuf t1 t2 1 0 with
  | none => exact trivial
  | some v =>
    obtain ⟨tr, i1, i2⟩ := v
    cases h2 : transition_function_derivative σ.tbuf t1 t2 1 0 with
    | none => exact trivial
    | some td => exact ⟨rfl, rfl, rfl⟩

end Scri
